import Mathlib

/-!
Verification development for a propositional PDR (property-directed
reachability) safety checker.

The checker manipulates solver Boolean formulas; here formulas are embedded
as an inductive syntax with Boolean-valued evaluation.  The SMT oracle
(`is_tautology` in the source) is realised as a complete enumeration-based
decision procedure whose countermodels assign exactly the variables occurring
in the queried formula: this mirrors the backend solver, whose models contain
only the constants that occur in the asserted formula (looking up any other
variable in a model yields `None`).
-/

namespace PdrCheck

/-- Variables are numbers; the checker is configured with explicit pairs of
current-state (unprimed) and next-state (primed) variables. -/
abbrev Var := Nat

/-- Propositional formulas: the fragment of solver terms the checker builds
(`And`, `Or`, `Xor`, `Not`, `Implies`, Boolean equality, constants). -/
inductive Formula where
  | tt
  | ff
  | var (v : Var)
  | not (f : Formula)
  | and (f g : Formula)
  | or (f g : Formula)
  | xor (f g : Formula)
  | iff (f g : Formula)
  | imp (f g : Formula)
deriving Repr, DecidableEq

/-- Evaluation of a formula under a total assignment. -/
def Formula.eval (σ : Var → Bool) : Formula → Bool
  | .tt => true
  | .ff => false
  | .var v => σ v
  | .not f => !(f.eval σ)
  | .and f g => f.eval σ && g.eval σ
  | .or f g => f.eval σ || g.eval σ
  | .xor f g => Bool.xor (f.eval σ) (g.eval σ)
  | .iff f g => f.eval σ == g.eval σ
  | .imp f g => !(f.eval σ) || g.eval σ

/-- The list of variables occurring in a formula (with repetitions). -/
def Formula.varList : Formula → List Var
  | .tt => []
  | .ff => []
  | .var v => [v]
  | .not f => f.varList
  | .and f g => f.varList ++ g.varList
  | .or f g => f.varList ++ g.varList
  | .xor f g => f.varList ++ g.varList
  | .iff f g => f.varList ++ g.varList
  | .imp f g => f.varList ++ g.varList

/-- Simultaneous variable-for-variable substitution on a single variable:
the first pair whose first component matches wins (`z3.substitute`). -/
def substVar (pairs : List (Var × Var)) (v : Var) : Var :=
  match pairs.find? (fun ab => ab.1 == v) with
  | some ab => ab.2
  | none => v

/-- Capture-free simultaneous substitution of variables by variables,
mirroring `z3.substitute(formula, pairs)`. -/
def Formula.subst (pairs : List (Var × Var)) : Formula → Formula
  | .tt => .tt
  | .ff => .ff
  | .var v => .var (substVar pairs v)
  | .not f => .not (f.subst pairs)
  | .and f g => .and (f.subst pairs) (g.subst pairs)
  | .or f g => .or (f.subst pairs) (g.subst pairs)
  | .xor f g => .xor (f.subst pairs) (g.subst pairs)
  | .iff f g => .iff (f.subst pairs) (g.subst pairs)
  | .imp f g => .imp (f.subst pairs) (g.subst pairs)

/-- A solver model: an assignment to finitely many variables.  Looking up a
variable that the model does not mention yields `none`. -/
abbrev Model := List (Var × Bool)

/-- Model lookup (`model[b]` on the solver side). -/
def lookupA (m : Model) (v : Var) : Option Bool :=
  match m.find? (fun ab => ab.1 == v) with
  | some ab => some ab.2
  | none => none

/-- Completion of a model to a total assignment (unmentioned variables read
as `false`); evaluation only depends on the mentioned variables. -/
def asgnFun (m : Model) : Var → Bool := fun v => (lookupA m v).getD false

/-- All assignments over a given list of variables. -/
def allAsgns : List Var → List Model
  | [] => [[]]
  | v :: vs => (allAsgns vs).flatMap (fun a => [(v, false) :: a, (v, true) :: a])

/-- The first assignment over the occurring variables falsifying `f`, if any. -/
def firstFalsifier (f : Formula) : Option Model :=
  (allAsgns f.varList.dedup).find? (fun a => !(f.eval (asgnFun a)))

/-- The oracle of the source (`is_tautology`): a verdict together with a
countermodel when the formula is falsifiable. -/
def is_tautology (f : Formula) : Bool × Option Model :=
  match firstFalsifier f with
  | none => (true, none)
  | some a => (false, some a)

/-- The bare tautology verdict. -/
def isTaut (f : Formula) : Bool := (firstFalsifier f).isNone

/-! ### Oracle correctness -/

theorem eval_congr {f : Formula} {σ τ : Var → Bool}
    (h : ∀ v ∈ f.varList, σ v = τ v) : f.eval σ = f.eval τ := by
  induction f with
  | tt => rfl
  | ff => rfl
  | var v => exact h v (by simp [Formula.varList])
  | not f ih =>
      simp only [Formula.eval]
      rw [ih (fun v hv => h v (by simpa [Formula.varList] using hv))]
  | and f g ihf ihg =>
      simp only [Formula.eval]
      rw [ihf (fun v hv => h v (by simp [Formula.varList, hv])),
        ihg (fun v hv => h v (by simp [Formula.varList, hv]))]
  | or f g ihf ihg =>
      simp only [Formula.eval]
      rw [ihf (fun v hv => h v (by simp [Formula.varList, hv])),
        ihg (fun v hv => h v (by simp [Formula.varList, hv]))]
  | xor f g ihf ihg =>
      simp only [Formula.eval]
      rw [ihf (fun v hv => h v (by simp [Formula.varList, hv])),
        ihg (fun v hv => h v (by simp [Formula.varList, hv]))]
  | iff f g ihf ihg =>
      simp only [Formula.eval]
      rw [ihf (fun v hv => h v (by simp [Formula.varList, hv])),
        ihg (fun v hv => h v (by simp [Formula.varList, hv]))]
  | imp f g ihf ihg =>
      simp only [Formula.eval]
      rw [ihf (fun v hv => h v (by simp [Formula.varList, hv])),
        ihg (fun v hv => h v (by simp [Formula.varList, hv]))]

theorem keys_of_mem_allAsgns : ∀ {vs : List Var} {a : Model},
    a ∈ allAsgns vs → a.map Prod.fst = vs := by
  intro vs
  induction vs with
  | nil => intro a ha; simp [allAsgns] at ha; simp [ha]
  | cons v vs ih =>
      intro a ha
      simp only [allAsgns, List.mem_flatMap] at ha
      obtain ⟨b, hb, hab⟩ := ha
      simp only [List.mem_cons, List.mem_singleton, List.not_mem_nil, or_false] at hab
      rcases hab with h | h <;> subst h <;> simp [ih hb]

theorem exists_asgn_matching (σ : Var → Bool) :
    ∀ (vs : List Var), ∃ a ∈ allAsgns vs, ∀ v ∈ vs, lookupA a v = some (σ v) := by
  intro vs
  induction vs with
  | nil => exact ⟨[], by simp [allAsgns], by simp⟩
  | cons v vs ih =>
      obtain ⟨a, ha, hmatch⟩ := ih
      refine ⟨(v, σ v) :: a, ?_, ?_⟩
      · simp only [allAsgns, List.mem_flatMap]
        refine ⟨a, ha, ?_⟩
        cases h : σ v <;> simp [h]
      · intro w hw
        by_cases hvw : w = v
        · subst hvw; simp [lookupA]
        · simp only [List.mem_cons] at hw
          rcases hw with h | h
          · exact absurd h hvw
          · have hfind : List.find? (fun ab => ab.1 == w) ((v, σ v) :: a) =
                List.find? (fun ab => ab.1 == w) a :=
              List.find?_cons_of_neg _ (by simp [Ne.symm hvw])
            simpa [lookupA, hfind] using hmatch w h

theorem asgnFun_matching {a : Model} {σ : Var → Bool} {vs : List Var}
    (h : ∀ v ∈ vs, lookupA a v = some (σ v)) :
    ∀ v ∈ vs, asgnFun a v = σ v := by
  intro v hv
  simp [asgnFun, h v hv]

/-- Soundness and completeness of the tautology verdict. -/
theorem isTaut_iff (f : Formula) : isTaut f = true ↔ ∀ σ, f.eval σ = true := by
  constructor
  · intro h σ
    have hnone : firstFalsifier f = none := by
      simpa [isTaut, Option.isNone_iff_eq_none] using h
    obtain ⟨a, ha, hmatch⟩ := exists_asgn_matching σ f.varList.dedup
    have hall := List.find?_eq_none.mp
      (show (allAsgns f.varList.dedup).find? (fun b => !(f.eval (asgnFun b))) = none from hnone)
    have hfa' : f.eval (asgnFun a) = true := by
      have := hall a ha
      simpa using this
    have : f.eval σ = f.eval (asgnFun a) := by
      refine eval_congr (fun v hv => ?_)
      have := asgnFun_matching hmatch v (List.mem_dedup.mpr hv)
      exact this.symm
    rw [this, hfa']
  · intro h
    simp only [isTaut, Option.isNone_iff_eq_none, firstFalsifier]
    rw [List.find?_eq_none]
    intro a _
    simp [h (asgnFun a)]

/-- A countermodel really falsifies the query, and mentions exactly the
variables occurring in it. -/
theorem firstFalsifier_spec {f : Formula} {a : Model}
    (h : firstFalsifier f = some a) :
    f.eval (asgnFun a) = false ∧ a.map Prod.fst = f.varList.dedup := by
  have h' : (allAsgns f.varList.dedup).find? (fun b => !(f.eval (asgnFun b))) = some a := h
  have hmem : a ∈ allAsgns f.varList.dedup := List.mem_of_find?_eq_some h'
  have hpred := List.find?_some h'
  constructor
  · simpa using hpred
  · exact keys_of_mem_allAsgns hmem

theorem is_tautology_true {f : Formula} (h : (is_tautology f).1 = true) :
    ∀ σ, f.eval σ = true := by
  have : isTaut f = true := by
    cases hf : firstFalsifier f
    · simp [isTaut, hf]
    · simp [is_tautology, hf] at h
  exact (isTaut_iff f).mp this

theorem isTaut_of_valid {f : Formula} (h : ∀ σ, f.eval σ = true) :
    isTaut f = true := (isTaut_iff f).mpr h

/-! ### The PDR checker

The class `PDR` of the source holds the vocabulary pairing; a frame (trace
element) is a list of clauses read conjunctively; a trace is a list of
frames; a program state maps each vocabulary variable to an optional Boolean
(looking a variable up in a solver model can yield `None`). -/

/-- Verdict constants of the source. -/
def SAFE : Int := 1

/-- Verdict constant for a violated postcondition. -/
def UNSAFE : Int := 0

/-- Verdict constant for an undecided query. -/
def UNKNOWN : Int := -1

/-- A program state: each listed variable is bound to an optional Boolean
(`None` when the solver model did not mention the variable). -/
abbrev State := List (Var × Option Bool)

/-- `And(*R)`: the conjunction of a list of formulas (`True` when empty). -/
def mkAndList (l : List Formula) : Formula := l.foldr Formula.and Formula.tt

/-- Boolean constants as formulas. -/
def boolConst : Bool → Formula
  | true => Formula.tt
  | false => Formula.ff

/-- `state_to_cube`: the conjunction `⋀ (b == v)` over the bound entries of a
(possibly partial) state, skipping entries bound to `None`. -/
def state_to_cube (s : State) : Formula :=
  mkAndList (s.filterMap (fun bv =>
    match bv.2 with
    | some v => some (Formula.iff (Formula.var bv.1) (boolConst v))
    | none => none))

/-- The checker's configuration: the list of (unprimed, primed) pairs. -/
structure PDR where
  bool_pairs : List (Var × Var)

/-- The unprimed vocabulary. -/
def PDR.bools (p : PDR) : List Var := p.bool_pairs.map Prod.fst

/-- The primed vocabulary. -/
def PDR.boolps (p : PDR) : List Var := p.bool_pairs.map Prod.snd

/-- The reversed pairing used to unprime. -/
def PDR.boolp_pairs (p : PDR) : List (Var × Var) :=
  p.bool_pairs.map (fun ab => (ab.2, ab.1))

/-- Convert all original state variables into primed state variables. -/
def PDR.to_prime (p : PDR) (f : Formula) : Formula := f.subst p.bool_pairs

/-- Convert all primed state variables into original state variables. -/
def PDR.to_origin (p : PDR) (f : Formula) : Formula := f.subst p.boolp_pairs

/-- The program state reading all **original** variables from a model. -/
def PDR.get_state_origin (p : PDR) (m : Model) : State :=
  p.bools.map (fun b => (b, lookupA m b))

/-- The program state reading all **primed** variables from a model, keyed by
the corresponding original variables. -/
def PDR.get_state_prime (p : PDR) (m : Model) : State :=
  p.bool_pairs.map (fun ab => (ab.1, lookupA m ab.2))

/-- `is_implied(f1, f2, trans)`: whether `f1 ∧ trans ⇒ f2'` is a tautology,
with a countermodel otherwise. -/
def PDR.is_implied (p : PDR) (f1 f2 trans : Formula) : Bool × Option Model :=
  is_tautology (Formula.imp (Formula.and f1 trans) (p.to_prime f2))

/-- `induct_naive(R, trans)`: the clauses of `R` that are one-step implied by
`conj(R)` under the transition. -/
def PDR.induct_naive (p : PDR) (R : List Formula) (trans : Formula) :
    List Formula :=
  R.filter (fun c => (p.is_implied (mkAndList R) c trans).1)

/-- Results of the Python functions, mirrored exactly, plus the two effects
the shallow embedding must make explicit: `crash` for an uncaught Python
exception (applying `get_state_prime` to `None`), and `fuelOut` when the
supplied fuel does not cover the recursion/loop depth of the run. -/
inductive Outcome (α : Type) where
  | ok (a : α)
  | crash
  | fuelOut
deriving Repr, DecidableEq

/-- The result triple of `back_prop`: verdict, updated trace, counterexample
sequence. -/
abbrev BPRes := Int × Option (List (List Formula)) × Option (List State)

/-- Internal calls of `back_prop`: either an entry call on a trace, or an
iteration of its blocking loop (`R0s` prefix, current last element `Rn`,
current strengthened prefix `nR0s`). -/
inductive BPCall where
  | main (Rs : List (List Formula)) (post : Formula) (level : Nat)
  | loop (R0s : List (List Formula)) (Rn : List Formula)
      (nR0s : List (List Formula)) (post : Formula) (level : Nat)

/-- The recursive worker realising `back_prop` (entry case and blocking-loop
case) with explicit fuel; every source-level loop iteration and recursive
call consumes one unit. -/
def bpAux (p : PDR) (init trans : Formula) : Nat → BPCall → Outcome BPRes
  | 0, _ => .fuelOut
  | Nat.succ fuel, .main Rs post level =>
    match Rs with
    | [] =>
      if (p.is_implied init post trans).1 then .ok (SAFE, some [], none)
      else
        match (p.is_implied init post trans).2 with
        | some m =>
            .ok (UNSAFE, none, some [p.get_state_origin m, p.get_state_prime m])
        | none => .crash
    | _ :: _ =>
      bpAux p init trans fuel (.loop Rs.dropLast (Rs.getLastD []) Rs.dropLast post level)
  | Nat.succ fuel, .loop R0s Rn nR0s post level =>
    let q := if level > 0 then p.is_implied (mkAndList Rn) post trans
             else is_tautology (Formula.imp (mkAndList Rn) post)
    if q.1 then .ok (SAFE, some (nR0s ++ [Rn]), none)
    else
      match q.2 with
      | none => .crash
      | some m =>
        let Rn' := Rn ++ [Formula.not (state_to_cube (p.get_state_origin m))]
        match bpAux p init trans fuel (.main R0s (mkAndList Rn') (level + 1)) with
        | .fuelOut => .fuelOut
        | .crash => .crash
        | .ok (cr, nR0sN, ceO) =>
          if cr = UNSAFE then
            match ceO with
            | none => .crash
            | some ce =>
              if level > 0 then
                match (p.is_implied (state_to_cube (ce.getLastD []))
                    (mkAndList Rn') trans).2 with
                | some m2 => .ok (UNSAFE, none, some (ce ++ [p.get_state_prime m2]))
                | none => .crash
              else .ok (UNSAFE, none, some ce)
          else
            bpAux p init trans fuel (.loop R0s Rn' (nR0sN.getD R0s) post level)

/-- `back_prop(Rs, init, trans, post, level)` with explicit fuel. -/
def back_prop (p : PDR) (fuel : Nat) (Rs : List (List Formula))
    (init trans post : Formula) (level : Nat) : Outcome BPRes :=
  bpAux p init trans fuel (.main Rs post level)

/-- The iteration worker of `forward_prop`. -/
def fpGo (p : PDR) (trans : Formula) :
    Nat → List Formula → List (List Formula) → List (List Formula)
  | 0, _, Rs => Rs
  | Nat.succ k, R, Rs =>
    let nR := p.induct_naive R trans
    let Rs2 := Rs ++ [nR]
    if isTaut (Formula.iff (mkAndList R) (mkAndList nR)) then Rs2
    else fpGo p trans k nR Rs2

/-- `forward_prop(R0, maxlen, trans)`: iterated induction from `R0`, at most
`maxlen - 1` steps, stopping early at an equivalent pair of frames. -/
def forward_prop (p : PDR) (R0 : List Formula) (maxlen : Nat)
    (trans : Formula) : List (List Formula) :=
  fpGo p trans (maxlen - 1) R0 [R0]

/-- The result triple of `pdr`: verdict, invariant, counterexample sequence. -/
abbrev PDRRes := Int × Option Formula × Option (List State)

/-- One iteration of the driver loop: run `back_prop` on the current trace,
return a final result (`Sum.inl`) or the trace for the next iteration
(`Sum.inr`), which is the rebuilt trace produced by `forward_prop`. -/
def pdrIter (p : PDR) (init trans post : Formula) (fuel : Nat)
    (Rs : List (List Formula)) : Outcome (PDRRes ⊕ List (List Formula)) :=
  match back_prop p fuel Rs init trans post 0 with
  | .fuelOut => .fuelOut
  | .crash => .crash
  | .ok (cr, nRsO, ceO) =>
    if cr = UNSAFE then .ok (.inl (UNSAFE, none, ceO))
    else
      let Rs2 := forward_prop p ((nRsO.getD []).headD []) (Rs.length + 1) trans
      if isTaut (Formula.iff (mkAndList (Rs2.getLastD []))
          (mkAndList (Rs2.dropLast.getLastD []))) then
        .ok (.inl (SAFE, some (mkAndList (Rs2.getLastD [])), none))
      else .ok (.inr Rs2)

/-- The driver loop with explicit fuel. -/
def pdrLoop (p : PDR) (init trans post : Formula) :
    Nat → List (List Formula) → Outcome PDRRes
  | 0, _ => .fuelOut
  | Nat.succ fuel, Rs =>
    match pdrIter p init trans post (Nat.succ fuel) Rs with
    | .fuelOut => .fuelOut
    | .crash => .crash
    | .ok (.inl r) => .ok r
    | .ok (.inr Rs2) => pdrLoop p init trans post fuel Rs2

/-- `pdr(init, trans, post)`: the main entry point, starting from the trace
containing a single empty frame. -/
def pdr (p : PDR) (init trans post : Formula) (fuel : Nat) : Outcome PDRRes :=
  pdrLoop p init trans post fuel [[]]

/-- The outcome of one `Solver.check()` call of the backend: `unsat`, `sat`
with a model, or `unknown` (timeout, incompleteness). -/
inductive Z3CheckRes where
  | unsat
  | sat (m : Model)
  | unknown

/-- `Solver.model()`: available only after a `sat` answer; in the source,
calling it after an `unknown` answer raises the backend exception
`model is not available`. -/
def solverModel : Z3CheckRes → Except String Model
  | .sat m => .ok m
  | _ => .error "model is not available"

/-- The body of `is_tautology` over an explicit backend answer, as written in
the source: `unsat` reports a tautology, any other answer reads a model off
the solver (which raises when the answer was `unknown`). -/
def is_tautology_z3 : Z3CheckRes → Except String (Bool × Option Model)
  | .unsat => .ok (true, none)
  | r => (solverModel r).map (fun m => (false, some m))

/-! ### Semantic toolbox -/

theorem mkAndList_eval (σ : Var → Bool) (l : List Formula) :
    (mkAndList l).eval σ = l.all (fun c => c.eval σ) := by
  induction l with
  | nil => rfl
  | cons c l ih =>
      simp only [mkAndList, List.foldr, Formula.eval, List.all_cons]
      rw [show List.foldr Formula.and Formula.tt l = mkAndList l from rfl, ih]

theorem subst_eval (pairs : List (Var × Var)) (σ : Var → Bool) :
    ∀ f : Formula, (f.subst pairs).eval σ = f.eval (fun v => σ (substVar pairs v)) := by
  intro f
  induction f with
  | tt => rfl
  | ff => rfl
  | var v => rfl
  | not f ih => simp [Formula.subst, Formula.eval, ih]
  | and f g ihf ihg => simp [Formula.subst, Formula.eval, ihf, ihg]
  | or f g ihf ihg => simp [Formula.subst, Formula.eval, ihf, ihg]
  | xor f g ihf ihg => simp [Formula.subst, Formula.eval, ihf, ihg]
  | iff f g ihf ihg => simp [Formula.subst, Formula.eval, ihf, ihg]
  | imp f g ihf ihg => simp [Formula.subst, Formula.eval, ihf, ihg]

theorem is_tautology_fst (f : Formula) : (is_tautology f).1 = isTaut f := by
  unfold is_tautology isTaut
  cases firstFalsifier f <;> rfl

theorem is_tautology_fst_iff (f : Formula) :
    (is_tautology f).1 = true ↔ ∀ σ, f.eval σ = true := by
  rw [is_tautology_fst]; exact isTaut_iff f

theorem is_implied_fst_iff (p : PDR) (f1 f2 trans : Formula) :
    (p.is_implied f1 f2 trans).1 = true ↔
      ∀ σ, (Formula.imp (Formula.and f1 trans) (p.to_prime f2)).eval σ = true := by
  unfold PDR.is_implied
  exact is_tautology_fst_iff _

theorem mkAndList_mono {l l' : List Formula} (h : ∀ c ∈ l', c ∈ l)
    (σ : Var → Bool) (hl : (mkAndList l).eval σ = true) :
    (mkAndList l').eval σ = true := by
  rw [mkAndList_eval] at hl ⊢
  rw [List.all_eq_true] at hl ⊢
  intro c hc
  exact hl c (h c hc)

theorem eval_imp_iff (σ : Var → Bool) (f g : Formula) :
    (Formula.imp f g).eval σ = true ↔ (f.eval σ = true → g.eval σ = true) := by
  simp only [Formula.eval]
  cases f.eval σ <;> cases g.eval σ <;> simp

theorem eval_and_iff (σ : Var → Bool) (f g : Formula) :
    (Formula.and f g).eval σ = true ↔ (f.eval σ = true ∧ g.eval σ = true) := by
  simp only [Formula.eval]
  cases f.eval σ <;> cases g.eval σ <;> simp

/-! ### The forward-push induction step -/

theorem induct_naive_mem_iff (p : PDR) (R : List Formula) (trans : Formula)
    (c : Formula) :
    c ∈ p.induct_naive R trans ↔
      (c ∈ R ∧ ∀ σ, (Formula.imp (Formula.and (mkAndList R) trans)
        (p.to_prime c)).eval σ = true) := by
  unfold PDR.induct_naive
  rw [List.mem_filter]
  constructor
  · rintro ⟨hc, hq⟩
    exact ⟨hc, (is_implied_fst_iff p _ _ _).mp hq⟩
  · rintro ⟨hc, hq⟩
    exact ⟨hc, (is_implied_fst_iff p _ _ _).mpr hq⟩

theorem induct_naive_conj_imp (p : PDR) (R : List Formula) (trans : Formula) :
    ∀ σ, (Formula.imp (mkAndList R)
      (mkAndList (p.induct_naive R trans))).eval σ = true := by
  intro σ
  rw [eval_imp_iff]
  intro hR
  exact mkAndList_mono
    (fun c hc => ((induct_naive_mem_iff p R trans c).mp hc).1) σ hR

theorem induct_naive_relative (p : PDR) (R : List Formula) (trans : Formula) :
    ∀ σ, (Formula.imp (Formula.and (mkAndList R) trans)
      (p.to_prime (mkAndList (p.induct_naive R trans)))).eval σ = true := by
  intro σ
  rw [eval_imp_iff]
  intro hA
  unfold PDR.to_prime
  rw [subst_eval, mkAndList_eval, List.all_eq_true]
  intro c hc
  have h2 := ((induct_naive_mem_iff p R trans c).mp hc).2 σ
  rw [eval_imp_iff] at h2
  have h3 := h2 hA
  unfold PDR.to_prime at h3
  rw [subst_eval] at h3
  exact h3

/-- C6: `induct_naive(R, T)` returns exactly those clauses `c` of `R` for
which `conj(R) ∧ T ⇒ c'` is a tautology; consequently every clause of the
result is a clause of `R`, and `conj(R) ⇒ conj(induct_naive(R, T))` is a
tautology. -/
theorem induct_naive_exact_and_monotone (p : PDR) (R : List Formula)
    (trans : Formula) :
    (∀ c, c ∈ p.induct_naive R trans ↔
      (c ∈ R ∧ ∀ σ, (Formula.imp (Formula.and (mkAndList R) trans)
        (p.to_prime c)).eval σ = true)) ∧
    (∀ c ∈ p.induct_naive R trans, c ∈ R) ∧
    (∀ σ, (Formula.imp (mkAndList R)
      (mkAndList (p.induct_naive R trans))).eval σ = true) :=
  ⟨fun c => induct_naive_mem_iff p R trans c,
   fun c hc => ((induct_naive_mem_iff p R trans c).mp hc).1,
   induct_naive_conj_imp p R trans⟩

/-! ### Claim C8: the vocabulary round trip -/

theorem substVar_mem {pairs : List (Var × Var)} {v : Var}
    (hv : v ∈ pairs.map Prod.fst) :
    ∃ ab ∈ pairs, ab.1 = v ∧ substVar pairs v = ab.2 := by
  obtain ⟨ab0, hab0, hfst⟩ := List.mem_map.mp hv
  have hsome : (pairs.find? (fun ab => ab.1 == v)).isSome := by
    rw [List.find?_isSome]
    exact ⟨ab0, hab0, by simp [hfst]⟩
  obtain ⟨ab, hab⟩ := Option.isSome_iff_exists.mp hsome
  refine ⟨ab, List.mem_of_find?_eq_some hab, ?_, ?_⟩
  · have := List.find?_some hab
    simpa using this
  · simp [substVar, hab]

/-- Priming followed by unpriming is the syntactic identity on formulas over
the unprimed vocabulary, provided all the registered variables are distinct. -/
theorem to_origin_to_prime_eq (p : PDR)
    (hnd : (p.bools ++ p.boolps).Nodup) :
    ∀ f : Formula, (∀ v ∈ f.varList, v ∈ p.bools) →
      p.to_origin (p.to_prime f) = f := by
  have hvar : ∀ v ∈ p.bools, substVar p.boolp_pairs (substVar p.bool_pairs v) = v := by
    intro v hv
    obtain ⟨ab, habmem, habfst, habsubst⟩ := @substVar_mem p.bool_pairs v hv
    rw [habsubst]
    have hsnd : ab.2 ∈ p.boolp_pairs.map Prod.fst := by
      simp only [PDR.boolp_pairs, List.map_map]
      exact List.mem_map.mpr ⟨ab, habmem, rfl⟩
    obtain ⟨ba, hbamem, hbafst, hbasubst⟩ := @substVar_mem p.boolp_pairs ab.2 hsnd
    rw [hbasubst]
    obtain ⟨ab', hab'mem, hab'swap⟩ := List.mem_map.mp hbamem
    have hndps : p.boolps.Nodup := (List.nodup_append.mp hnd).2.1
    have hinj : ∀ x ∈ p.bool_pairs, ∀ y ∈ p.bool_pairs,
        Prod.snd x = Prod.snd y → x = y :=
      List.inj_on_of_nodup_map hndps
    have hab'snd : ab'.2 = ab.2 := by
      have : ba.1 = ab'.2 := by rw [← hab'swap]
      rw [← this, hbafst]
    have : ab' = ab := hinj ab' hab'mem ab habmem hab'snd
    subst this
    have : ba.2 = ab'.1 := by rw [← hab'swap]
    rw [this, habfst]
  intro f
  induction f with
  | tt => intro hf; rfl
  | ff => intro hf; rfl
  | var v =>
      intro hf
      have hv : v ∈ p.bools := hf v (by simp [Formula.varList])
      simp only [PDR.to_prime, PDR.to_origin, Formula.subst]
      rw [hvar v hv]
  | not f ih =>
      intro hf
      simp only [PDR.to_prime, PDR.to_origin, Formula.subst] at ih ⊢
      rw [ih (fun v hv => hf v (by simpa [Formula.varList] using hv))]
  | and f g ihf ihg =>
      intro hf
      simp only [PDR.to_prime, PDR.to_origin, Formula.subst] at ihf ihg ⊢
      rw [ihf (fun v hv => hf v (by simp [Formula.varList, hv])),
        ihg (fun v hv => hf v (by simp [Formula.varList, hv]))]
  | or f g ihf ihg =>
      intro hf
      simp only [PDR.to_prime, PDR.to_origin, Formula.subst] at ihf ihg ⊢
      rw [ihf (fun v hv => hf v (by simp [Formula.varList, hv])),
        ihg (fun v hv => hf v (by simp [Formula.varList, hv]))]
  | xor f g ihf ihg =>
      intro hf
      simp only [PDR.to_prime, PDR.to_origin, Formula.subst] at ihf ihg ⊢
      rw [ihf (fun v hv => hf v (by simp [Formula.varList, hv])),
        ihg (fun v hv => hf v (by simp [Formula.varList, hv]))]
  | iff f g ihf ihg =>
      intro hf
      simp only [PDR.to_prime, PDR.to_origin, Formula.subst] at ihf ihg ⊢
      rw [ihf (fun v hv => hf v (by simp [Formula.varList, hv])),
        ihg (fun v hv => hf v (by simp [Formula.varList, hv]))]
  | imp f g ihf ihg =>
      intro hf
      simp only [PDR.to_prime, PDR.to_origin, Formula.subst] at ihf ihg ⊢
      rw [ihf (fun v hv => hf v (by simp [Formula.varList, hv])),
        ihg (fun v hv => hf v (by simp [Formula.varList, hv]))]

/-- C8: for every formula over the unprimed variables of a duplicate-free
vocabulary, `to_origin(to_prime(F))` is logically equivalent to `F`. -/
theorem to_origin_to_prime_equiv (p : PDR)
    (hnd : (p.bools ++ p.boolps).Nodup) (f : Formula)
    (hf : ∀ v ∈ f.varList, v ∈ p.bools) :
    ∀ σ, (p.to_origin (p.to_prime f)).eval σ = f.eval σ := by
  intro σ
  rw [to_origin_to_prime_eq p hnd f hf]

/-! ### Structural invariants of `back_prop` and the driver -/

theorem keys_get_state_origin (p : PDR) (m : Model) :
    (p.get_state_origin m).map Prod.fst = p.bools := by
  unfold PDR.get_state_origin
  rw [List.map_map]
  exact List.map_id p.bools

theorem keys_get_state_prime (p : PDR) (m : Model) :
    (p.get_state_prime m).map Prod.fst = p.bools := by
  unfold PDR.get_state_prime PDR.bools
  rw [List.map_map]
  rfl

/-- The precondition under which a call shape determines the length of a
`SAFE` result: loop iterations carry a strengthened prefix of the same
length as the remaining prefix. -/
def bpPre : BPCall → Prop
  | .main _ _ _ => True
  | .loop R0s _ nR0s _ _ => nR0s.length = R0s.length

/-- The trace length a `SAFE` result of each call shape produces. -/
def bpLen : BPCall → Nat
  | .main Rs _ _ => Rs.length
  | .loop R0s _ _ _ _ => R0s.length + 1

/-- Master invariant of `back_prop`: a returned result is either `SAFE` with
a strengthened trace of the input's length (and no counterexample), or
`UNSAFE` with a counterexample of at least two states, each keyed by exactly
the unprimed vocabulary. -/
theorem bpAux_ok_inv (p : PDR) (init trans : Formula) :
    ∀ fuel c r, bpAux p init trans fuel c = Outcome.ok r →
    (∃ nRs, r = (SAFE, some nRs, none) ∧ (bpPre c → nRs.length = bpLen c)) ∨
    (∃ ce, r = (UNSAFE, none, some ce) ∧ 2 ≤ ce.length ∧
      ∀ s ∈ ce, s.map Prod.fst = p.bools) := by
  intro fuel
  induction fuel with
  | zero => intro c r h; exact absurd h (by simp [bpAux])
  | succ fuel ih =>
    intro c r h
    match c with
    | .main Rs post level =>
      match Rs with
      | [] =>
        simp only [bpAux] at h
        by_cases hq : (p.is_implied init post trans).1 = true
        · rw [if_pos hq] at h
          injection h with h
          exact Or.inl ⟨[], h.symm, fun _ => by simp [bpLen]⟩
        · rw [if_neg hq] at h
          cases hm : (p.is_implied init post trans).2 with
          | none => rw [hm] at h; exact Outcome.noConfusion h
          | some m =>
            rw [hm] at h
            injection h with h
            refine Or.inr ⟨_, h.symm, by simp, ?_⟩
            intro s hs
            simp only [List.mem_cons, List.mem_singleton, List.not_mem_nil,
              or_false] at hs
            rcases hs with hs | hs <;> subst hs
            · exact keys_get_state_origin p m
            · exact keys_get_state_prime p m
      | R :: Rs' =>
        simp only [bpAux] at h
        rcases ih _ _ h with ⟨nRs, hr, hlen⟩ | hun
        · refine Or.inl ⟨nRs, hr, fun _ => ?_⟩
          have h1 := hlen (by simp [bpPre])
          simp only [bpLen, List.length_dropLast, List.length_cons] at h1 ⊢
          omega
        · exact Or.inr hun
    | .loop R0s Rn nR0s post level =>
      simp only [bpAux] at h
      by_cases hq : (if level > 0 then p.is_implied (mkAndList Rn) post trans
          else is_tautology (Formula.imp (mkAndList Rn) post)).1 = true
      · rw [if_pos hq] at h
        injection h with h
        refine Or.inl ⟨nR0s ++ [Rn], h.symm, fun hpre => ?_⟩
        simp only [bpPre] at hpre
        simp [bpLen, hpre]
      · rw [if_neg hq] at h
        cases hm : (if level > 0 then p.is_implied (mkAndList Rn) post trans
            else is_tautology (Formula.imp (mkAndList Rn) post)).2 with
        | none => rw [hm] at h; exact Outcome.noConfusion h
        | some m =>
          rw [hm] at h
          dsimp only at h
          cases hrec : bpAux p init trans fuel
              (.main R0s (mkAndList (Rn ++
                [Formula.not (state_to_cube (p.get_state_origin m))]))
                (level + 1)) with
          | fuelOut => rw [hrec] at h; exact Outcome.noConfusion h
          | crash => rw [hrec] at h; exact Outcome.noConfusion h
          | ok res =>
            rw [hrec] at h
            obtain ⟨cr, nR0sN, ceO⟩ := res
            dsimp only at h
            rcases ih _ _ hrec with ⟨nRs0, hres, hlen0⟩ | ⟨ce, hres, hce2, hcek⟩
            · have hcr : cr = SAFE := by
                have := congrArg Prod.fst hres; simpa using this
              have hnR0sN : nR0sN = some nRs0 := by
                have := congrArg (fun t => t.2.1) hres; simpa using this
              have hcrneq : ¬(cr = UNSAFE) := by
                rw [hcr]; simp [SAFE, UNSAFE]
              rw [if_neg hcrneq] at h
              rcases ih _ _ h with ⟨nRs, hr, hlen⟩ | hun
              · refine Or.inl ⟨nRs, hr, fun hpre => ?_⟩
                have hlen0' := hlen0 (by simp [bpPre])
                simp only [bpLen] at hlen0'
                have hgd : (nR0sN.getD R0s).length = R0s.length := by
                  rw [hnR0sN]; simpa using hlen0'
                have := hlen (by simpa [bpPre] using hgd)
                simpa [bpLen] using this
              · exact Or.inr hun
            · have hcr : cr = UNSAFE := by
                have := congrArg Prod.fst hres; simpa using this
              have hceO : ceO = some ce := by
                have := congrArg (fun t => t.2.2) hres; simpa using this
              rw [if_pos hcr] at h
              rw [hceO] at h
              dsimp only at h
              by_cases hlev : level > 0
              · rw [if_pos hlev] at h
                cases hx : (p.is_implied (state_to_cube (ce.getLastD []))
                    (mkAndList (Rn ++
                      [Formula.not (state_to_cube (p.get_state_origin m))]))
                    trans).2 with
                | none => rw [hx] at h; exact Outcome.noConfusion h
                | some m2 =>
                  rw [hx] at h
                  injection h with h
                  refine Or.inr ⟨_, h.symm, ?_, ?_⟩
                  · simp only [List.length_append, List.length_singleton]
                    omega
                  · intro s hs
                    rcases List.mem_append.mp hs with hs | hs
                    · exact hcek s hs
                    · simp only [List.mem_singleton] at hs
                      subst hs
                      exact keys_get_state_prime p m2
              · rw [if_neg hlev] at h
                injection h with h
                exact Or.inr ⟨ce, h.symm, hce2, hcek⟩

/-- The driver-iteration invariant: each iteration either ends with a `SAFE`
result carrying an invariant formula, ends with an `UNSAFE` result carrying a
counterexample sequence of at least two fully-keyed states, or hands the next
trace to the following iteration. -/
theorem pdrIter_ok_inv (p : PDR) (init trans post : Formula) (fuel : Nat)
    (Rs : List (List Formula)) (x : PDRRes ⊕ List (List Formula))
    (h : pdrIter p init trans post fuel Rs = Outcome.ok x) :
    (∃ I, x = .inl (SAFE, some I, none)) ∨
    (∃ ce, x = .inl (UNSAFE, none, some ce) ∧ 2 ≤ ce.length ∧
      ∀ s ∈ ce, s.map Prod.fst = p.bools) ∨
    (∃ Rs2, x = .inr Rs2) := by
  unfold pdrIter at h
  cases hbp : back_prop p fuel Rs init trans post 0 with
  | fuelOut => rw [hbp] at h; exact Outcome.noConfusion h
  | crash => rw [hbp] at h; exact Outcome.noConfusion h
  | ok res =>
    rw [hbp] at h
    obtain ⟨cr, nRsO, ceO⟩ := res
    dsimp only at h
    rcases bpAux_ok_inv p init trans fuel _ _ hbp with
      ⟨nRs0, hres, _⟩ | ⟨ce, hres, hce2, hcek⟩
    · have hcr : cr = SAFE := by
        have := congrArg Prod.fst hres; simpa using this
      have hcrneq : ¬(cr = UNSAFE) := by
        rw [hcr]; simp [SAFE, UNSAFE]
      rw [if_neg hcrneq] at h
      by_cases heq : isTaut (Formula.iff
          (mkAndList ((forward_prop p ((nRsO.getD []).headD [])
            (Rs.length + 1) trans).getLastD []))
          (mkAndList ((forward_prop p ((nRsO.getD []).headD [])
            (Rs.length + 1) trans).dropLast.getLastD []))) = true
      · rw [if_pos heq] at h
        injection h with h
        exact Or.inl ⟨_, h.symm⟩
      · rw [if_neg heq] at h
        injection h with h
        exact Or.inr (Or.inr ⟨_, h.symm⟩)
    · have hcr : cr = UNSAFE := by
        have := congrArg Prod.fst hres; simpa using this
      have hceO : ceO = some ce := by
        have := congrArg (fun t => t.2.2) hres; simpa using this
      rw [if_pos hcr] at h
      injection h with h
      exact Or.inr (Or.inl ⟨ce, by rw [← h, hceO], hce2, hcek⟩)

/-- The driver-loop invariant: a returned result is either `SAFE` with an
invariant formula and no counterexample, or `UNSAFE` with a counterexample
sequence of at least two fully-keyed states and no invariant. -/
theorem pdrLoop_ok_inv (p : PDR) (init trans post : Formula) :
    ∀ fuel Rs r, pdrLoop p init trans post fuel Rs = Outcome.ok r →
    (∃ I, r = (SAFE, some I, none)) ∨
    (∃ ce, r = (UNSAFE, none, some ce) ∧ 2 ≤ ce.length ∧
      ∀ s ∈ ce, s.map Prod.fst = p.bools) := by
  intro fuel
  induction fuel with
  | zero => intro Rs r h; exact absurd h (by simp [pdrLoop])
  | succ fuel ih =>
    intro Rs r h
    simp only [pdrLoop] at h
    cases hit : pdrIter p init trans post (Nat.succ fuel) Rs with
    | fuelOut => rw [hit] at h; exact Outcome.noConfusion h
    | crash => rw [hit] at h; exact Outcome.noConfusion h
    | ok x =>
      rw [hit] at h
      rcases pdrIter_ok_inv p init trans post _ _ _ hit with
        ⟨I, hx⟩ | ⟨ce, hx, hce2, hcek⟩ | ⟨Rs2, hx⟩
      · subst hx; injection h with h; exact Or.inl ⟨I, h.symm⟩
      · subst hx; injection h with h; exact Or.inr ⟨ce, h.symm, hce2, hcek⟩
      · subst hx; exact ih Rs2 r h

/-! ### Adjacent frames of a rebuilt trace are related by induction -/

theorem fpGo_adj (p : PDR) (trans : Formula) :
    ∀ (k : Nat) (R : List Formula) (Rs : List (List Formula)),
      Rs.getLast? = some R →
      (∀ i, i + 1 < Rs.length →
        Rs.getD (i+1) [] = p.induct_naive (Rs.getD i []) trans) →
      ∀ i, i + 1 < (fpGo p trans k R Rs).length →
        (fpGo p trans k R Rs).getD (i+1) [] =
          p.induct_naive ((fpGo p trans k R Rs).getD i []) trans := by
  intro k
  induction k with
  | zero => intro R Rs hlast hadj; simpa [fpGo] using hadj
  | succ k ih =>
    intro R Rs hlast hadj
    simp only [fpGo]
    have hlen0 : Rs.length ≠ 0 := by
      intro h0
      rw [List.length_eq_zero] at h0
      subst h0
      simp at hlast
    have hadj2 : ∀ i, i + 1 < (Rs ++ [p.induct_naive R trans]).length →
        (Rs ++ [p.induct_naive R trans]).getD (i+1) [] =
          p.induct_naive ((Rs ++ [p.induct_naive R trans]).getD i []) trans := by
      intro i hi
      simp only [List.length_append, List.length_singleton] at hi
      by_cases hi1 : i + 1 < Rs.length
      · rw [List.getD_append _ _ _ _ hi1, List.getD_append _ _ _ _ (by omega)]
        exact hadj i hi1
      · have hieq : i + 1 = Rs.length := by omega
        have hR : Rs.getD i [] = R := by
          have h1 : Rs.getLast? = Rs[Rs.length - 1]? := List.getLast?_eq_getElem? Rs
          have h2 : Rs[i]? = some R := by
            rw [show i = Rs.length - 1 by omega, ← h1, hlast]
          rw [List.getD_eq_getElem?_getD, h2]
          rfl
        rw [List.getD_append_right Rs [p.induct_naive R trans] [] (i+1) (by omega),
          List.getD_append Rs [p.induct_naive R trans] [] i (by omega), hR]
        simp [hieq]
    by_cases hstop : isTaut (Formula.iff (mkAndList R)
        (mkAndList (p.induct_naive R trans))) = true
    · rw [if_pos hstop]
      exact hadj2
    · rw [if_neg hstop]
      exact ih (p.induct_naive R trans) (Rs ++ [p.induct_naive R trans])
        (by simp) hadj2

theorem forward_prop_adj (p : PDR) (R0 : List Formula) (maxlen : Nat)
    (trans : Formula) :
    ∀ i, i + 1 < (forward_prop p R0 maxlen trans).length →
      (forward_prop p R0 maxlen trans).getD (i+1) [] =
        p.induct_naive ((forward_prop p R0 maxlen trans).getD i []) trans := by
  unfold forward_prop
  refine fpGo_adj p trans _ R0 [R0] (by simp) ?_
  intro i hi
  simp only [List.length_singleton] at hi
  omega

/-! ### Claim theorems about the driver and `back_prop` -/

/-- C9: if `back_prop` returns a `SAFE` result with a strengthened trace,
that trace has exactly the length of the input trace: backward refinement
never adds or removes a frame. -/
theorem back_prop_safe_length (p : PDR) (fuel : Nat)
    (Rs nRs : List (List Formula)) (init trans post : Formula) (level : Nat)
    (x : Option (List State))
    (h : back_prop p fuel Rs init trans post level =
      Outcome.ok (SAFE, some nRs, x)) :
    nRs.length = Rs.length := by
  rcases bpAux_ok_inv p init trans fuel _ _ h with
    ⟨nRs0, hres, hlen⟩ | ⟨ce, hres, _, _⟩
  · have h1 : nRs = nRs0 := by
      have := congrArg (fun t => t.2.1) hres
      simpa using this
    have h2 := hlen (by simp [bpPre])
    rw [h1]
    simpa [bpLen] using h2
  · exfalso
    have := congrArg Prod.fst hres
    simp [SAFE, UNSAFE] at this

/-- C10: a counterexample sequence returned by `pdr` always contains at
least two states: the base case produces a two-state sequence and recursive
levels only append states. -/
theorem pdr_unsafe_ce_length (p : PDR) (init trans post : Formula)
    (fuel : Nat) (iv : Option Formula) (ce : List State)
    (h : pdr p init trans post fuel = Outcome.ok (UNSAFE, iv, some ce)) :
    2 ≤ ce.length := by
  rcases pdrLoop_ok_inv p init trans post fuel [[]] _ h with
    ⟨I, hres⟩ | ⟨ce', hres, hce2, _⟩
  · exfalso
    have := congrArg Prod.fst hres
    simp [SAFE, UNSAFE] at this
  · have h1 : ce = ce' := by
      have := congrArg (fun t => t.2.2) hres
      simpa using this
    rw [h1]
    exact hce2

/-- C7 (amended): every state of a counterexample sequence returned by `pdr`
is keyed by exactly the unprimed vocabulary, each variable bound to an
*optional* Boolean; a variable's value is `None` when the solver model for
the corresponding query did not mention it, so states need not be full. -/
theorem pdr_ce_states_fully_keyed (p : PDR) (init trans post : Formula)
    (fuel : Nat) (cr : Int) (iv : Option Formula) (ce : List State)
    (h : pdr p init trans post fuel = Outcome.ok (cr, iv, some ce)) :
    ∀ s ∈ ce, s.map Prod.fst = p.bools := by
  rcases pdrLoop_ok_inv p init trans post fuel [[]] _ h with
    ⟨I, hres⟩ | ⟨ce', hres, _, hcek⟩
  · exfalso
    have := congrArg (fun t => t.2.2) hres
    simp at this
  · have h1 : ce = ce' := by
      have := congrArg (fun t => t.2.2) hres
      simpa using this
    rw [h1]
    exact hcek

/-- C4: when the backend answers `unknown`, the source's `is_tautology` does
not return an `oracle-failure` verdict that the driver could surface: it
calls `Solver.model()`, which raises; and the driver never returns the
`UNKNOWN` verdict at all — every returned verdict is `SAFE` or `UNSAFE`. -/
theorem is_tautology_unknown_raises_and_pdr_never_unknown :
    is_tautology_z3 Z3CheckRes.unknown =
      Except.error "model is not available" ∧
    ∀ (p : PDR) (init trans post : Formula) (fuel : Nat) (r : PDRRes),
      pdr p init trans post fuel = Outcome.ok r → r.1 ≠ UNKNOWN := by
  refine ⟨rfl, ?_⟩
  intro p init trans post fuel r h
  rcases pdrLoop_ok_inv p init trans post fuel [[]] _ h with
    ⟨I, hres⟩ | ⟨ce, hres, _, _⟩
  · rw [hres]
    simp [SAFE, UNKNOWN]
  · rw [hres]
    simp [UNSAFE, UNKNOWN]

/-- C3 (amended): at every driver loop boundary (a trace handed by one
iteration to the next), adjacent frames satisfy `conj(Rs[i]) ⇒ conj(Rs[i+1])`
and `conj(Rs[i]) ∧ T ⇒ conj(Rs[i+1])'` as tautologies.  (The initial
containment `Init ⇒ conj(Rs[i])` of the original claim does not hold; see
the counterexample.) -/
theorem pdr_boundary_trace_inv (p : PDR) (init trans post : Formula)
    (fuel : Nat) (Rs Rs2 : List (List Formula))
    (h : pdrIter p init trans post fuel Rs = Outcome.ok (.inr Rs2)) :
    ∀ i, i + 1 < Rs2.length →
      (∀ σ, (Formula.imp (mkAndList (Rs2.getD i []))
        (mkAndList (Rs2.getD (i+1) []))).eval σ = true) ∧
      (∀ σ, (Formula.imp (Formula.and (mkAndList (Rs2.getD i [])) trans)
        (p.to_prime (mkAndList (Rs2.getD (i+1) [])))).eval σ = true) := by
  have hfp : ∃ R0, Rs2 = forward_prop p R0 (Rs.length + 1) trans := by
    unfold pdrIter at h
    cases hbp : back_prop p fuel Rs init trans post 0 with
    | fuelOut => rw [hbp] at h; exact Outcome.noConfusion h
    | crash => rw [hbp] at h; exact Outcome.noConfusion h
    | ok res =>
      rw [hbp] at h
      obtain ⟨cr, nRsO, ceO⟩ := res
      dsimp only at h
      by_cases hcr : cr = UNSAFE
      · rw [if_pos hcr] at h
        injection h with h
        exact Sum.noConfusion h
      · rw [if_neg hcr] at h
        by_cases heq : isTaut (Formula.iff
            (mkAndList ((forward_prop p ((nRsO.getD []).headD [])
              (Rs.length + 1) trans).getLastD []))
            (mkAndList ((forward_prop p ((nRsO.getD []).headD [])
              (Rs.length + 1) trans).dropLast.getLastD []))) = true
        · rw [if_pos heq] at h
          injection h with h
          exact Sum.noConfusion h
        · rw [if_neg heq] at h
          injection h with h
          injection h with h
          exact ⟨_, h.symm⟩
  obtain ⟨R0, hRs2⟩ := hfp
  subst hRs2
  intro i hi
  have hadj := forward_prop_adj p R0 (Rs.length + 1) trans i hi
  rw [hadj]
  exact ⟨induct_naive_conj_imp p _ trans, induct_naive_relative p _ trans⟩

/-! ### Concrete systems separating the checker from its specification -/

/-- A one-variable vocabulary: `x` (0) paired with its prime (1). -/
def pOne : PDR := ⟨[(0, 1)]⟩

/-- A two-variable vocabulary: `x` (0) and `y` (2) paired with their primes
(1 and 3). -/
def pTwo : PDR := ⟨[(0, 1), (2, 3)]⟩

/-- `Init = ¬x`: the initial state has `x` false. -/
def initC1 : Formula := .not (.var 0)

/-- `T = (x' == (x ∨ ¬x))`: every transition sets `x`. -/
def transC1 : Formula := .iff (.var 1) (.or (.var 0) (.not (.var 0)))

/-- `Post = x`. -/
def postC1 : Formula := .var 0

/-- The invariant returned by the driver on the system above: the
materialised conjunction of the single learned clause, equivalent to `x`. -/
def invC1 : Formula :=
  .and (.not (.and (.iff (.var 0) .ff) .tt)) .tt

/-- C1 refutation: on the well-formed input `Init = ¬x`,
`T = (x' == (x ∨ ¬x))`, `Post = x` — whose initial state already violates
`Post` — `pdr` returns `(SAFE, I, None)` with `I ≡ x`, yet `Init ⇒ I` is not
a tautology.  The base case of `back_prop` only ever checks
`Init ∧ T ⇒ obligation'`, one step after `Init`; `Init ⇒ Post` itself is
never examined, so the `SAFE` verdict is unsound. -/
theorem pdr_safe_verdict_unsound :
    pdr pOne initC1 transC1 postC1 30 = Outcome.ok (SAFE, some invC1, none) ∧
    isTaut (Formula.imp initC1 invC1) = false :=
  ⟨rfl, rfl⟩

/-- `Init = ¬x ∧ ¬y` for the boundary-invariant counterexample. -/
def initC3 : Formula := .and (.not (.var 0)) (.not (.var 2))

/-- `T = (x' == ¬(x ∨ y)) ∧ (y' == y)`. -/
def transC3 : Formula :=
  .and (.iff (.var 1) (.not (.or (.var 0) (.var 2)))) (.iff (.var 3) (.var 2))

/-- `Post = x ∨ y`. -/
def postC3 : Formula := .or (.var 0) (.var 2)

/-- The blocking clause of the first frame at the first loop boundary of the
system above: the negated cube of the state `x = F, y = F`. -/
def clauseC3 : Formula :=
  .not (.and (.iff (.var 0) .ff) (.and (.iff (.var 2) .ff) .tt))

/-- C3 counterexample: after the first driver iteration on the system
`Init = ¬x ∧ ¬y`, `T = (x' == ¬(x∨y)) ∧ (y' == y)`, `Post = x ∨ y`, the
rebuilt trace `[[¬(x=F ∧ y=F)], []]` is handed to the next iteration (the
loop continues, so this is a boundary between iterations), and
`Init ⇒ conj(Rs[0])` is not a tautology. -/
theorem pdr_boundary_init_containment_fails :
    pdrIter pTwo initC3 transC3 postC3 30 [[]] =
      Outcome.ok (.inr [[clauseC3], []]) ∧
    isTaut (Formula.imp initC3 (mkAndList [clauseC3])) = false :=
  ⟨rfl, rfl⟩

/-- `Init = ¬x ∧ ¬y` for the partial-state counterexample. -/
def initC7 : Formula := .and (.not (.var 0)) (.not (.var 2))

/-- `T = (x' == x)`: a transition mentioning neither `y` nor `y'`. -/
def transC7 : Formula := .iff (.var 1) (.var 0)

/-- `Post = x`. -/
def postC7 : Formula := .var 0

/-- The counterexample sequence returned on the system above: its second
state binds variable `2` (`y`) to no Boolean, because `y'` occurs in no
query and the solver model therefore does not mention it. -/
def ceC7 : List State :=
  [[(0, some false), (2, some false)], [(0, some false), (2, none)]]

/-- C7 counterexample: `pdr` returns a counterexample sequence containing a
state that is not full — its entry for variable `2` (`y`) is `none`. -/
theorem pdr_ce_state_not_full :
    pdr pTwo initC7 transC7 postC7 30 =
      Outcome.ok (UNSAFE, none, some ceC7) ∧
    (2, (none : Option Bool)) ∈ ceC7.getD 1 [] :=
  ⟨rfl, by decide⟩

/-- `Init = x ∧ ¬y` (the single state `x = T, y = F`). -/
def initC2 : Formula := .and (.var 0) (.and (.not (.var 2)) .tt)

/-- `T = (x' == (x ∧ ¬y))`: the next `x` is determined, the next `y` is
unconstrained (the vocabulary still registers the pair `(y, y')`). -/
def transC2 : Formula :=
  .iff (.var 1) (.or (.and (.var 0) (.and (.not (.var 2)) .tt)) .ff)

/-- `Post` true at every state except `x = F, y = T`. -/
def postC2 : Formula :=
  .or (.and (.not (.var 0)) (.and (.not (.var 2)) .tt))
    (.or (.and (.var 0) (.and (.not (.var 2)) .tt))
      (.or (.and (.var 0) (.and (.var 2) .tt)) .ff))

/-- The counterexample sequence `pdr` returns on the system above; its last
state is `x = F, y = F`, a state satisfying `Post`. -/
def ceC2 : List State :=
  [[(0, some true), (2, some false)], [(0, some true), (2, some true)],
   [(0, some false), (2, some false)]]

/-- C2 refutation: on the well-formed input `Init = x ∧ ¬y`,
`T = (x' == (x ∧ ¬y))`, `Post = ¬(¬x ∧ y)`, `pdr` returns `UNSAFE` with the
three-state sequence `[(T,F), (T,T), (F,F)]` whose last state is full and
satisfies `Post` under every assignment consistent with it: the sequence
does not end in a violation of the postcondition.  (The final state of a
counterexample is only ever checked against the strengthened second-to-last
frame, never against `Post` itself.) -/
theorem pdr_unsafe_ce_misses_post :
    (pdr pTwo initC2 transC2 postC2 80 =
      Outcome.ok (UNSAFE, none, some ceC2)) ∧
    ∀ σ : Var → Bool, σ 0 = false → σ 2 = false → postC2.eval σ = true := by
  refine ⟨rfl, ?_⟩
  intro σ h0 h2
  have hvars : ∀ v ∈ postC2.varList, σ v = (fun _ => false) v := by
    intro v hv
    have : v = 0 ∨ v = 2 ∨ v = 0 ∨ v = 2 ∨ v = 0 ∨ v = 2 := by
      simpa [postC2, Formula.varList] using hv
    rcases this with h | h | h | h | h | h <;> subst h <;> assumption
  rw [eval_congr hvars]
  rfl

/-! ### Witnesses -/

/-- Witness instantiating the universally quantified part of the C2
refutation at a concrete assignment. -/
theorem pdr_unsafe_ce_misses_post_w : postC2.eval (fun _ => false) = true :=
  pdr_unsafe_ce_misses_post.2 (fun _ => false) rfl rfl

/-- Witness for C6 at a concrete frame, transition and clause. -/
theorem induct_naive_exact_and_monotone_w :
    Formula.var 0 ∈ [Formula.var 0] :=
  (induct_naive_exact_and_monotone pOne [Formula.var 0]
    (Formula.iff (Formula.var 1) (Formula.var 0))).2.1
    (Formula.var 0) (by decide)

/-- Witness for C8 at the two-variable vocabulary and the formula `x`. -/
theorem to_origin_to_prime_equiv_w :
    (pTwo.to_origin (pTwo.to_prime (Formula.var 0))).eval (fun _ => false) =
      (Formula.var 0).eval (fun _ => false) :=
  to_origin_to_prime_equiv pTwo (by decide) (Formula.var 0) (by decide)
    (fun _ => false)

/-- Witness for C9 at a concrete `SAFE` run of `back_prop`. -/
theorem back_prop_safe_length_w :
    ([[Formula.not (Formula.and (Formula.iff (Formula.var 0) Formula.ff)
      Formula.tt)]] : List (List Formula)).length =
      ([[]] : List (List Formula)).length :=
  back_prop_safe_length pOne 30 [[]]
    [[Formula.not (Formula.and (Formula.iff (Formula.var 0) Formula.ff)
      Formula.tt)]] initC1 transC1 postC1 0 none rfl

/-- Witness for C10 at a concrete `UNSAFE` run of `pdr`. -/
theorem pdr_unsafe_ce_length_w : 2 ≤ ceC7.length :=
  pdr_unsafe_ce_length pTwo initC7 transC7 postC7 30 none ceC7 rfl

/-- Witness for the amended C7 at a concrete `UNSAFE` run of `pdr`. -/
theorem pdr_ce_states_fully_keyed_w :
    ([(0, some false), (2, (none : Option Bool))] : State).map Prod.fst =
      pTwo.bools :=
  pdr_ce_states_fully_keyed pTwo initC7 transC7 postC7 30 UNSAFE none ceC7 rfl
    [(0, some false), (2, none)] (by decide)

/-- Witness for C4 at a concrete run of `pdr`. -/
theorem is_tautology_unknown_raises_and_pdr_never_unknown_w :
    ((SAFE, some invC1, none) : PDRRes).1 ≠ UNKNOWN :=
  is_tautology_unknown_raises_and_pdr_never_unknown.2 pOne initC1 transC1
    postC1 30 (SAFE, some invC1, none) rfl

/-- Witness for the amended C3 at the first boundary of a concrete run. -/
theorem pdr_boundary_trace_inv_w :
    (Formula.imp (mkAndList (([[clauseC3], []] : List (List Formula)).getD 0 []))
      (mkAndList (([[clauseC3], []] : List (List Formula)).getD 1 []))).eval
      (fun _ => false) = true :=
  (pdr_boundary_trace_inv pTwo initC3 transC3 postC3 30 [[]] [[clauseC3], []]
    rfl 0 (by decide)).1 (fun _ => false)

end PdrCheck
